import Mathlib

/-!
Verification of the Small-Language-Model RAG pipeline
(`Small_Language_Model.ipynb`): chunking, embedding-based indexing,
nearest-neighbour retrieval and answer generation.

The pure Python functions are embedded as Lean functions.  External
capabilities (the nltk sentence tokenizer, the sentence-transformer
encoder, the T5 generation model and its tokenizers) are modelled as
function parameters; faiss `IndexFlatL2` is modelled by its documented
behaviour (exact squared-L2 nearest-neighbour search returning exactly
`k` results, padding with label `-1` when fewer than `k` vectors are
stored).  Python `list` indexing (negative indices allowed, raising
`IndexError` out of range) is modelled with `Option`.
-/

namespace SLM

/-- Helper for Python `str.split()`: scans the characters, accumulating the
current word in reverse; words are the maximal runs of non-whitespace
characters (empty pieces are never produced, exactly as in Python). -/
def pyWordsAux : List Char → List Char → List String
  | [], [] => []
  | [], cur => [String.mk cur.reverse]
  | c :: cs, cur =>
    if c.isWhitespace then
      match cur with
      | [] => pyWordsAux cs []
      | _ => String.mk cur.reverse :: pyWordsAux cs []
    else pyWordsAux cs (c :: cur)

/-- Python `sentence.split()`: split on whitespace runs, no empty pieces. -/
def pySplit (s : String) : List String := pyWordsAux s.data []

/-- Word count of one sentence, `len(sentence.split())` in the source. -/
def wordCount (s : String) : Nat := (pySplit s).length

/-- Python `sep.join(xs)`. -/
def pyJoin (sep : String) : List String → String
  | [] => ""
  | [a] => a
  | a :: b :: rest => a ++ sep ++ pyJoin sep (b :: rest)

/-- Loop of `chunk_text(text, chunk_size)`: greedily accumulate sentences
into `current_chunk`, tracking `current_length`; close the chunk as soon as
`current_length >= chunk_size`; keep a trailing non-empty chunk.  The sentence
groups are kept as lists here; `chunk_text` below applies `" ".join`. -/
def chunkAux (chunk_size : Nat) : List String → List String → Nat → List (List String)
  | [], current_chunk, _ =>
      if current_chunk.isEmpty then [] else [current_chunk]
  | sentence :: rest, current_chunk, current_length =>
      let len := current_length + wordCount sentence
      let chunk := current_chunk ++ [sentence]
      if chunk_size ≤ len then
        chunk :: chunkAux chunk_size rest [] 0
      else
        chunkAux chunk_size rest chunk len

/-- Sentence groups produced by `chunk_text`.  The call
`sent_tokenize(text)` is an external capability, so the embedding takes its
output (the sentence list) as the input. -/
def chunkGroups (sentences : List String) (chunk_size : Nat := 200) : List (List String) :=
  chunkAux chunk_size sentences [] 0

/-- Embedding of `chunk_text(text, chunk_size=200)`: each closed sentence
group is joined with single spaces, `" ".join(current_chunk)`. -/
def chunk_text (sentences : List String) (chunk_size : Nat := 200) : List String :=
  (chunkGroups sentences chunk_size).map (fun c => pyJoin " " c)

/-- Word count of a sentence group: the sum of the word counts of its
sentences (this is exactly the `current_length` the source tracks). -/
def groupWords (c : List String) : Nat := (c.map wordCount).sum

theorem chunkAux_flatten (n : Nat) :
    ∀ (ss acc : List String) (len : Nat),
      (chunkAux n ss acc len).flatten = acc ++ ss
  | [], acc, len => by
      by_cases h : acc.isEmpty
      · have : acc = [] := List.isEmpty_iff.mp h
        simp [chunkAux, h, this]
      · simp [chunkAux, h]
  | s :: rest, acc, len => by
      simp only [chunkAux]
      by_cases h : n ≤ len + wordCount s
      · simp [h, chunkAux_flatten n rest [] 0]
      · simp [h, chunkAux_flatten n rest (acc ++ [s]) (len + wordCount s)]

theorem chunkAux_groups_ne_nil (n : Nat) :
    ∀ (ss acc : List String) (len : Nat),
      ∀ c ∈ chunkAux n ss acc len, c ≠ []
  | [], acc, len => by
      intro c hc
      simp only [chunkAux] at hc
      by_cases h : acc.isEmpty
      · rw [if_pos h] at hc
        simp at hc
      · rw [if_neg h] at hc
        simp only [List.mem_singleton] at hc
        subst hc
        simpa [List.isEmpty_iff] using h
  | s :: rest, acc, len => by
      intro c hc
      simp only [chunkAux] at hc
      by_cases h : n ≤ len + wordCount s
      · rw [if_pos h] at hc
        rcases List.mem_cons.mp hc with h1 | h2
        · subst h1; simp
        · exact chunkAux_groups_ne_nil n rest [] 0 c h2
      · rw [if_neg h] at hc
        exact chunkAux_groups_ne_nil n rest (acc ++ [s]) (len + wordCount s) c hc

theorem chunkAux_ne_nil (n : Nat) :
    ∀ (ss acc : List String) (len : Nat), acc ≠ [] ∨ ss ≠ [] →
      chunkAux n ss acc len ≠ []
  | [], acc, len, h => by
      have hacc : acc ≠ [] := by
        rcases h with h | h
        · exact h
        · exact absurd rfl h
      simp [chunkAux, List.isEmpty_iff, hacc]
  | s :: rest, acc, len, _ => by
      simp only [chunkAux]
      by_cases h : n ≤ len + wordCount s
      · simp [h]
      · rw [if_neg h]
        exact chunkAux_ne_nil n rest (acc ++ [s]) (len + wordCount s) (Or.inl (by simp))

theorem chunkAux_small (n : Nat) :
    ∀ (ss acc : List String) (len : Nat),
      len + (ss.map wordCount).sum < n →
      chunkAux n ss acc len = if acc ++ ss = [] then [] else [acc ++ ss]
  | [], acc, len, _ => by
      by_cases h : acc.isEmpty
      · have : acc = [] := List.isEmpty_iff.mp h
        simp [chunkAux, h, this]
      · have : acc ≠ [] := by simpa [List.isEmpty_iff] using h
        simp [chunkAux, List.isEmpty_iff.symm, h, this]
  | s :: rest, acc, len, hlt => by
      have hs : ¬ n ≤ len + wordCount s := by
        simp only [List.map_cons, List.sum_cons] at hlt
        omega
      have hrec : (len + wordCount s) + (rest.map wordCount).sum < n := by
        simp only [List.map_cons, List.sum_cons] at hlt
        omega
      simp only [chunkAux, if_neg hs]
      rw [chunkAux_small n rest (acc ++ [s]) (len + wordCount s) hrec]
      have hne : acc ++ [s] ++ rest ≠ [] := by simp
      have hne' : acc ++ s :: rest ≠ [] := by
        cases acc <;> simp
      simp [hne, hne', List.append_assoc]

theorem chunkAux_dropLast_ge (n : Nat) :
    ∀ (ss acc : List String) (len : Nat), len = groupWords acc →
      ∀ c ∈ (chunkAux n ss acc len).dropLast, n ≤ groupWords c
  | [], acc, len, _ => by
      by_cases h : acc.isEmpty
      · simp [chunkAux, h]
      · simp [chunkAux, h, List.dropLast]
  | s :: rest, acc, len, hinv => by
      intro c hc
      simp only [chunkAux] at hc
      by_cases h : n ≤ len + wordCount s
      · rw [if_pos h] at hc
        rcases hrec : chunkAux n rest [] 0 with _ | ⟨d, ds⟩
        · rw [hrec] at hc
          simp [List.dropLast] at hc
        · rw [hrec] at hc
          simp only [List.dropLast] at hc
          rcases List.mem_cons.mp hc with h1 | h2
          · subst h1
            have : groupWords (acc ++ [s]) = len + wordCount s := by
              simp [groupWords, hinv]
            omega
          · have h0 : groupWords ([] : List String) = 0 := by simp [groupWords]
            have := chunkAux_dropLast_ge n rest [] 0 h0.symm c
            rw [hrec] at this
            exact this (by simpa [List.dropLast] using h2)
      · rw [if_neg h] at hc
        have hinv' : len + wordCount s = groupWords (acc ++ [s]) := by
          simp [groupWords, hinv]
        exact chunkAux_dropLast_ge n rest (acc ++ [s]) (len + wordCount s) hinv' c hc

theorem chunkGroups_flatten (sentences : List String) (chunk_size : Nat) :
    (chunkGroups sentences chunk_size).flatten = sentences := by
  simpa using chunkAux_flatten chunk_size sentences [] 0

theorem chunkGroups_ne_nil (sentences : List String) (chunk_size : Nat)
    (h : sentences ≠ []) : chunkGroups sentences chunk_size ≠ [] :=
  chunkAux_ne_nil chunk_size sentences [] 0 (Or.inr h)

theorem chunk_text_ne_nil (sentences : List String) (chunk_size : Nat)
    (h : sentences ≠ []) : chunk_text sentences chunk_size ≠ [] := by
  intro hcontra
  exact chunkGroups_ne_nil sentences chunk_size h (by simpa [chunk_text] using hcontra)

theorem string_length_ne_zero {s : String} (h : s ≠ "") : s.length ≠ 0 := by
  cases s with
  | mk data =>
    cases data with
    | nil => exact absurd rfl h
    | cons c cs => simp

theorem pyJoin_ne_empty (sep : String) :
    ∀ (c : List String), c ≠ [] → (∀ s ∈ c, s ≠ "") → pyJoin sep c ≠ ""
  | [], h, _ => absurd rfl h
  | [a], _, hs => by simpa [pyJoin] using hs a (by simp)
  | a :: b :: rest, _, hs => by
      have ha : a.length ≠ 0 := string_length_ne_zero (hs a (by simp))
      intro hcontra
      have hlen : (pyJoin sep (a :: b :: rest)).length = 0 := by rw [hcontra]; rfl
      simp only [pyJoin, String.length_append] at hlen
      omega

/-- C1.  Concatenating the passages produced by `chunk_text` in order
reproduces the sentence-tokenized document exactly: the sentence groups
flatten back to the input sentence list (no sentence omitted, reordered or
duplicated), and each passage text is the space-join of its group. -/
theorem chunk_roundtrip (sentences : List String) (chunk_size : Nat) :
    (chunkGroups sentences chunk_size).flatten = sentences ∧
    chunk_text sentences chunk_size
      = (chunkGroups sentences chunk_size).map (fun c => pyJoin " " c) :=
  ⟨chunkGroups_flatten sentences chunk_size, rfl⟩

/-- C7.  Chunker edge cases: the empty document yields no passages; a
non-empty document (non-empty sentences) yields non-empty passages only;
and a document whose total word count is below `chunk_size` yields exactly
one passage holding all the sentences. -/
theorem chunk_edge_cases (sentences : List String) (chunk_size : Nat)
    (hne : sentences ≠ []) (hws : ∀ s ∈ sentences, s ≠ "") :
    chunk_text [] chunk_size = [] ∧
    chunk_text sentences chunk_size ≠ [] ∧
    (∀ p ∈ chunk_text sentences chunk_size, p ≠ "") ∧
    ((sentences.map wordCount).sum < chunk_size →
      chunk_text sentences chunk_size = [pyJoin " " sentences]) := by
  refine ⟨rfl, chunk_text_ne_nil sentences chunk_size hne, ?_, ?_⟩
  · intro p hp
    simp only [chunk_text, List.mem_map] at hp
    rcases hp with ⟨c, hc, rfl⟩
    have hcne : c ≠ [] := chunkAux_groups_ne_nil chunk_size sentences [] 0 c hc
    have hsub : ∀ s ∈ c, s ∈ sentences := by
      intro s hs
      rw [← chunkGroups_flatten sentences chunk_size]
      exact List.mem_flatten.mpr ⟨c, hc, hs⟩
    exact pyJoin_ne_empty " " c hcne (fun s hs => hws s (hsub s hs))
  · intro hlt
    have h := chunkAux_small chunk_size sentences [] 0 (by simpa using hlt)
    simp only [List.nil_append] at h
    rw [chunk_text, chunkGroups, h, if_neg hne]
    simp

/-- C10.  Every passage except possibly the last has word count (the sum of
the word counts of its sentences) at least `chunk_size`: a chunk is closed
only once the running count reaches the target. -/
theorem chunk_lower_bound (sentences : List String) (chunk_size : Nat)
    (c : List String)
    (hc : c ∈ (chunkGroups sentences chunk_size).dropLast) :
    chunk_size ≤ groupWords c :=
  chunkAux_dropLast_ge chunk_size sentences [] 0 (by simp [groupWords]) c hc

/-- Witness for C7 at a concrete document of two sentences. -/
theorem chunk_edge_cases_witness :
    chunk_text [] 200 = [] ∧
    chunk_text ["Elias searched.", "He found it."] 200 ≠ [] ∧
    (∀ p ∈ chunk_text ["Elias searched.", "He found it."] 200, p ≠ "") ∧
    (((["Elias searched.", "He found it."].map wordCount).sum < 200) →
      chunk_text ["Elias searched.", "He found it."] 200
        = [pyJoin " " ["Elias searched.", "He found it."]]) :=
  chunk_edge_cases ["Elias searched.", "He found it."] 200 (by decide) (by decide)

/-- Witness for C10: with target 2, the first chunk of a two-chunk split has
word count at least 2. -/
theorem chunk_lower_bound_witness : 2 ≤ groupWords ["a b c"] :=
  chunk_lower_bound ["a b c", "d"] 2 ["a b c"] (by decide)

/-- Squared Euclidean (L2) distance, the metric of faiss `IndexFlatL2`.
Float arithmetic is modelled over `ℚ`. -/
def sqDist (u v : List ℚ) : ℚ := ((u.zip v).map (fun p => (p.1 - p.2) ^ 2)).sum

/-- Ordering of search hits, a (label, distance) pair, by distance. -/
def hitLE (a b : Int × ℚ) : Prop := a.2 ≤ b.2

instance : DecidableRel hitLE := fun a b => inferInstanceAs (Decidable (a.2 ≤ b.2))

instance : IsTotal (Int × ℚ) hitLE := ⟨fun a b => le_total a.2 b.2⟩

instance : IsTrans (Int × ℚ) hitLE := ⟨fun _ _ _ h h' => le_trans h h'⟩

/-- Distance sentinel paired with label `-1` for the slots faiss cannot
fill when the index holds fewer than `k` vectors (the library reports its
float sentinel there; no claim depends on this value). -/
def padDist : ℚ := 2 ^ 128 - 2 ^ 104

/-- Distances of a query against every stored vector, labelled with the
vectors' insertion positions (the chunk sequence indices). -/
def scored (vecs : List (List ℚ)) (q : List ℚ) : List (Int × ℚ) :=
  (List.range vecs.length).map (fun i : Nat => ((i : Int), sqDist q (vecs.getD i [])))

/-- Model of faiss `IndexFlatL2.search` for one query row: exact
nearest-neighbour search under squared L2 distance; the k best (label,
distance) pairs ascending by distance, padded with label `-1` so that
exactly `k` pairs are always returned. -/
def faissSearch (vecs : List (List ℚ)) (q : List ℚ) (k : Nat) : List (Int × ℚ) :=
  let hits := (List.insertionSort hitLE (scored vecs q)).take k
  hits ++ List.replicate (k - hits.length) ((-1 : Int), padDist)

/-- Embedding of `encode_text(text_list, model, tokenizer)`: the
tokenizer/encoder pair is an external capability `embed` turning each text
into a fixed-dimension vector; the batch is encoded one vector per input
text, in order. -/
def encode_text (text_list : List String) (embed : String → List ℚ) : List (List ℚ) :=
  text_list.map embed

/-- Embedding of `build_faiss_index(chunks, model, tokenizer)`: encodes the
chunks and adds the embeddings to a fresh `IndexFlatL2`.  The index is
modelled by its stored vector list (insertion order = chunk sequence
index); the source returns the pair (index, embeddings). -/
def build_faiss_index (chunks : List String) (embed : String → List ℚ) :
    List (List ℚ) × List (List ℚ) :=
  let embeddings := encode_text chunks embed
  (embeddings, embeddings)

/-- Python list indexing `l[i]`: a negative index counts from the end;
an index out of range raises `IndexError`, modelled as `none`. -/
def pyGet (l : List α) (i : Int) : Option α :=
  if 0 ≤ i then l.get? i.toNat
  else if 0 ≤ i + l.length then l.get? (i + l.length).toNat else none

/-- Python list comprehension over fallible indexing, evaluated left to
right; `none` models the `IndexError` escaping the comprehension. -/
def mapOrFail (f : α → Option β) : List α → Option (List β)
  | [] => some []
  | a :: l =>
    match f a with
    | none => none
    | some b =>
      match mapOrFail f l with
      | none => none
      | some bs => some (b :: bs)

/-- Embedding of `retrieve_text(query, chunks, index, model, tokenizer,
top_k=3)`: encode the query (a batch of one, so the search runs on the
single row of the query matrix and `indices[0]` is that row's result) and
look each returned label up with Python list indexing `chunks[i]`. -/
def retrieve_text (query : String) (chunks : List String) (index : List (List ℚ))
    (embed : String → List ℚ) (top_k : Nat := 3) : Option (List String) :=
  let query_embedding := encode_text [query] embed
  let row := faissSearch index (query_embedding.headD []) top_k
  mapOrFail (fun h => pyGet chunks h.1) row

/-- Value Python `chunks[i]` yields for a label faiss can return: a true
sequence index, or the padding label `-1`, which Python resolves to the
last chunk.  A helper for stating the retrieval lemmas. -/
def resolveHit (chunks : List String) (e : Int × ℚ) : String :=
  if e.1 < 0 then chunks.getD (chunks.length - 1) "" else chunks.getD e.1.toNat ""

theorem length_scored (vecs : List (List ℚ)) (q : List ℚ) :
    (scored vecs q).length = vecs.length := by
  simp [scored]

theorem mem_scored {vecs : List (List ℚ)} {q : List ℚ} {e : Int × ℚ}
    (he : e ∈ scored vecs q) :
    ∃ i : Nat, i < vecs.length ∧ e = ((i : Int), sqDist q (vecs.getD i [])) := by
  simp only [scored, List.mem_map, List.mem_range] at he
  rcases he with ⟨i, hi, rfl⟩
  exact ⟨i, hi, rfl⟩

theorem faissSearch_hits_length (vecs : List (List ℚ)) (q : List ℚ) (k : Nat) :
    ((List.insertionSort hitLE (scored vecs q)).take k).length = min k vecs.length := by
  simp [List.length_take, List.length_insertionSort, length_scored]

theorem faissSearch_length (vecs : List (List ℚ)) (q : List ℚ) (k : Nat) :
    (faissSearch vecs q k).length = k := by
  simp only [faissSearch, List.length_append, List.length_replicate,
    faissSearch_hits_length]
  omega

theorem faissSearch_eq_hits {vecs : List (List ℚ)} {q : List ℚ} {k : Nat}
    (h : k ≤ vecs.length) :
    faissSearch vecs q k = (List.insertionSort hitLE (scored vecs q)).take k := by
  simp only [faissSearch, faissSearch_hits_length, Nat.min_eq_left h, Nat.sub_self,
    List.replicate_zero, List.append_nil]

theorem faissSearch_mem {vecs : List (List ℚ)} {q : List ℚ} {k : Nat} {e : Int × ℚ}
    (he : e ∈ faissSearch vecs q k) :
    e = ((-1 : Int), padDist) ∨
      ∃ i : Nat, i < vecs.length ∧ e = ((i : Int), sqDist q (vecs.getD i [])) := by
  simp only [faissSearch, List.mem_append] at he
  rcases he with he | he
  · have h1 : e ∈ List.insertionSort hitLE (scored vecs q) := List.mem_of_mem_take he
    have h2 : e ∈ scored vecs q :=
      ((List.perm_insertionSort hitLE (scored vecs q)).mem_iff).mp h1
    exact Or.inr (mem_scored h2)
  · rcases List.mem_replicate.mp he with ⟨-, rfl⟩
    exact Or.inl rfl

theorem faissSearch_sorted_take (vecs : List (List ℚ)) (q : List ℚ) (k : Nat) :
    ((faissSearch vecs q k).take (min k vecs.length)).Pairwise hitLE := by
  have htake : (faissSearch vecs q k).take (min k vecs.length)
      = (List.insertionSort hitLE (scored vecs q)).take k :=
    List.take_left' (faissSearch_hits_length vecs q k)
  rw [htake]
  exact List.Pairwise.sublist (List.take_sublist k _)
    (List.sorted_insertionSort hitLE (scored vecs q))

theorem faissSearch_drop (vecs : List (List ℚ)) (q : List ℚ) (k : Nat) :
    (faissSearch vecs q k).drop vecs.length
      = List.replicate (k - vecs.length) ((-1 : Int), padDist) := by
  rcases Nat.le_total k vecs.length with h | h
  · have h1 : (faissSearch vecs q k).length = k := faissSearch_length vecs q k
    rw [List.drop_eq_nil_of_le (by omega), Nat.sub_eq_zero_of_le h]
    rfl
  · have hlen : ((List.insertionSort hitLE (scored vecs q)).take k).length
        = vecs.length := by
      rw [faissSearch_hits_length]
      omega
    simp only [faissSearch]
    rw [List.drop_left' hlen, hlen]

theorem pyGet_ofNat (l : List α) (i : Nat) : pyGet l ((i : Nat) : Int) = l.get? i := by
  rw [pyGet, if_pos (by omega)]
  simp

theorem getLast_eq_getD {l : List α} (h : l ≠ []) (d : α) :
    l.getLast h = l.getD (l.length - 1) d := by
  have hpos : 0 < l.length := List.length_pos.mpr h
  rw [List.getLast_eq_get, List.getD_eq_get?, List.get?_eq_get (by omega)]
  rfl

theorem pyGet_neg_one {l : List α} (h : l ≠ []) :
    pyGet l (-1) = some (l.getLast h) := by
  have hpos : 0 < l.length := List.length_pos.mpr h
  rw [pyGet, if_neg (by omega), if_pos (by omega)]
  have ht : ((-1 : Int) + (l.length : Int)).toNat = l.length - 1 := by omega
  rw [ht, List.get?_eq_get (by omega), List.getLast_eq_get]

theorem pyGet_mem {l : List α} {i : Int} {b : α} (h : pyGet l i = some b) : b ∈ l := by
  rw [pyGet] at h
  split at h
  · exact List.get?_mem h
  · split at h
    · exact List.get?_mem h
    · exact absurd h (by simp)

theorem mapOrFail_eq_map {f : α → Option β} {g : α → β} :
    ∀ {l : List α}, (∀ a ∈ l, f a = some (g a)) → mapOrFail f l = some (l.map g)
  | [], _ => rfl
  | a :: l, h => by
      have ha := h a (by simp)
      have hl := mapOrFail_eq_map (fun x hx => h x (List.mem_cons_of_mem a hx))
      simp [mapOrFail, ha, hl]

theorem mapOrFail_mem {f : α → Option β} :
    ∀ {l : List α} {bs : List β}, mapOrFail f l = some bs →
      ∀ b ∈ bs, ∃ a ∈ l, f a = some b
  | [], bs, h => by
      simp only [mapOrFail, Option.some.injEq] at h
      subst h
      simp
  | a :: l, bs, h => by
      simp only [mapOrFail] at h
      cases hfa : f a with
      | none => rw [hfa] at h; cases h
      | some b0 =>
        rw [hfa] at h
        cases hrec : mapOrFail f l with
        | none => rw [hrec] at h; cases h
        | some bs0 =>
          rw [hrec] at h
          cases h
          intro b hb
          rcases List.mem_cons.mp hb with rfl | hb2
          · exact ⟨a, by simp, hfa⟩
          · rcases mapOrFail_mem hrec b hb2 with ⟨x, hx, hfx⟩
            exact ⟨x, List.mem_cons_of_mem a hx, hfx⟩

theorem vec_getD_map (chunks : List String) (embed : String → List ℚ) {i : Nat}
    (hi : i < chunks.length) :
    (chunks.map embed).getD i [] = embed (chunks.getD i "") := by
  rw [List.getD_eq_get?, List.getD_eq_get?, List.get?_eq_get hi,
    List.get?_eq_get (by simpa using hi), List.get_map]
  rfl

theorem retrieve_eq_map (chunks : List String) (embed : String → List ℚ)
    (query : String) (top_k : Nat) (h : chunks ≠ []) :
    retrieve_text query chunks (build_faiss_index chunks embed).1 embed top_k
      = some ((faissSearch (chunks.map embed) (embed query) top_k).map
          (resolveHit chunks)) := by
  have hres : ∀ e ∈ faissSearch (chunks.map embed) (embed query) top_k,
      pyGet chunks e.1 = some (resolveHit chunks e) := by
    intro e he
    have hpos : 0 < chunks.length := List.length_pos.mpr h
    rcases faissSearch_mem he with rfl | ⟨i, hi, rfl⟩
    · dsimp only [resolveHit]
      rw [if_pos (by decide), pyGet_neg_one h, getLast_eq_getD h]
    · have hi' : i < chunks.length := by simpa using hi
      dsimp only [resolveHit]
      rw [if_neg (by omega), Int.toNat_ofNat, pyGet_ofNat,
        List.getD_eq_get?, List.get?_eq_get hi']
      rfl
  exact mapOrFail_eq_map hres

theorem resolveHit_mem {chunks : List String} (h : chunks ≠ [])
    {vecs : List (List ℚ)} {q : List ℚ} {k : Nat}
    (hv : vecs.length = chunks.length) {e : Int × ℚ}
    (he : e ∈ faissSearch vecs q k) :
    resolveHit chunks e ∈ chunks := by
  have hpos : 0 < chunks.length := List.length_pos.mpr h
  rcases faissSearch_mem he with rfl | ⟨i, hi, rfl⟩
  · dsimp only [resolveHit]
    rw [if_pos (by decide), List.getD_eq_get?, List.get?_eq_get (by omega)]
    exact List.get_mem _ _ _
  · dsimp only [resolveHit]
    rw [if_neg (by omega), Int.toNat_ofNat, List.getD_eq_get?,
      List.get?_eq_get (by omega)]
    exact List.get_mem _ _ _

/-- Core retrieval lemma for `top_k` at most the passage count: retrieval
succeeds, returns exactly `top_k` passages from the chunk list, ordered by
non-decreasing squared L2 distance of their embeddings to the query
embedding. -/
theorem retrieve_sorted_core (chunks : List String) (embed : String → List ℚ)
    (query : String) (top_k : Nat) (h : chunks ≠ []) (hk : top_k ≤ chunks.length) :
    ∃ l, retrieve_text query chunks (build_faiss_index chunks embed).1 embed top_k
        = some l ∧
      l.length = top_k ∧ (∀ p ∈ l, p ∈ chunks) ∧
      l.Pairwise (fun p p' =>
        sqDist (embed query) (embed p) ≤ sqDist (embed query) (embed p')) := by
  have hvl : (chunks.map embed).length = chunks.length := List.length_map _ _
  refine ⟨_, retrieve_eq_map chunks embed query top_k h, ?_, ?_, ?_⟩
  · rw [List.length_map, faissSearch_length]
  · intro p hp
    rcases List.mem_map.mp hp with ⟨e, he, rfl⟩
    exact resolveHit_mem h hvl he
  · have hk' : top_k ≤ (chunks.map embed).length := by omega
    have hrow : faissSearch (chunks.map embed) (embed query) top_k
        = (List.insertionSort hitLE (scored (chunks.map embed) (embed query))).take
            top_k := faissSearch_eq_hits hk'
    have hpw : (faissSearch (chunks.map embed) (embed query) top_k).Pairwise hitLE := by
      rw [hrow]
      exact List.Pairwise.sublist (List.take_sublist top_k _)
        (List.sorted_insertionSort hitLE _)
    have coher : ∀ e ∈ faissSearch (chunks.map embed) (embed query) top_k,
        sqDist (embed query) (embed (resolveHit chunks e)) = e.2 := by
      intro e he
      rcases faissSearch_mem he with rfl | ⟨i, hi, rfl⟩
      · exfalso
        have h1 : ((-1 : Int), padDist) ∈ (List.insertionSort hitLE
            (scored (chunks.map embed) (embed query))).take top_k := by
          rw [← hrow]; exact he
        have h2 : ((-1 : Int), padDist) ∈ scored (chunks.map embed) (embed query) :=
          ((List.perm_insertionSort hitLE _).mem_iff).mp (List.mem_of_mem_take h1)
        rcases mem_scored h2 with ⟨i, -, hcontra⟩
        have : (-1 : Int) = (i : Int) := congrArg Prod.fst hcontra
        omega
      · have hi' : i < chunks.length := by omega
        dsimp only [resolveHit]
        rw [if_neg (by omega), Int.toNat_ofNat, vec_getD_map chunks embed hi']
    have hpw2 : (faissSearch (chunks.map embed) (embed query) top_k).Pairwise
        (fun a b => sqDist (embed query) (embed (resolveHit chunks a))
          ≤ sqDist (embed query) (embed (resolveHit chunks b))) :=
      hpw.imp_of_mem (fun ha hb hab => by
        rw [coher _ ha, coher _ hb]; exact hab)
    exact List.pairwise_map.mpr hpw2

/-- C3 is false as stated: an `IndexFlatL2` holding N = 1 vector searched
with k = 3 returns 3 result pairs, not min(3, 1) = 1. -/
theorem search_length_cex :
    (faissSearch [[(0 : ℚ)]] [(0 : ℚ)] 3).length
      ≠ min 3 ([[(0 : ℚ)]] : List (List ℚ)).length := by
  rw [faissSearch_length]
  decide

/-- C3 amended: `search` always returns exactly `k` (label, distance)
pairs; the first min(k, N) of them are the true nearest neighbours in
ascending distance order, and every pair past position N carries the
no-result label `-1`. -/
theorem faiss_search_shape (vecs : List (List ℚ)) (q : List ℚ) (k : Nat) :
    (faissSearch vecs q k).length = k ∧
    ((faissSearch vecs q k).take (min k vecs.length)).Pairwise hitLE ∧
    (faissSearch vecs q k).drop vecs.length
      = List.replicate (k - vecs.length) ((-1 : Int), padDist) :=
  ⟨faissSearch_length vecs q k, faissSearch_sorted_take vecs q k,
    faissSearch_drop vecs q k⟩

/-- C2 is false as stated: with one passage and top_k = 3 the Retriever
does not clamp; faiss pads with label `-1`, Python resolves `chunks[-1]`
to the last chunk, and the single passage comes back three times. -/
theorem retrieve_clamp_cex :
    retrieve_text "q" ["a"] (build_faiss_index ["a"] (fun _ => [0])).1
        (fun _ => [0]) 3
      = some ["a", "a", "a"] := by
  decide

/-- C2 amended: `retrieve_text` never clamps `top_k`; on a non-empty chunk
list it succeeds with exactly `top_k` passages drawn from the chunk list,
and every slot past the number of available passages repeats the last
chunk (faiss pads with label `-1`, and Python `chunks[-1]` is the last
element).  On an empty chunk list it raises instead. -/
theorem retrieve_no_clamp (chunks : List String) (embed : String → List ℚ)
    (query : String) (top_k : Nat) (h : chunks ≠ []) :
    ∃ l, retrieve_text query chunks (build_faiss_index chunks embed).1 embed top_k
        = some l ∧
      l.length = top_k ∧ (∀ p ∈ l, p ∈ chunks) ∧
      l.drop chunks.length
        = List.replicate (top_k - chunks.length) (chunks.getLast h) := by
  have hvl : (chunks.map embed).length = chunks.length := List.length_map _ _
  refine ⟨_, retrieve_eq_map chunks embed query top_k h, ?_, ?_, ?_⟩
  · rw [List.length_map, faissSearch_length]
  · intro p hp
    rcases List.mem_map.mp hp with ⟨e, he, rfl⟩
    exact resolveHit_mem h hvl he
  · rw [← List.map_drop, ← hvl, faissSearch_drop, List.map_replicate, hvl]
    have hval : resolveHit chunks ((-1 : Int), padDist) = chunks.getLast h := by
      dsimp only [resolveHit]
      rw [if_pos (by decide), getLast_eq_getD h]
    rw [hval]

/-- Witness for C2's amended claim at one passage and top_k = 3. -/
theorem retrieve_no_clamp_witness :
    ∃ l, retrieve_text "q" ["a"] (build_faiss_index ["a"] (fun _ => [0])).1
        (fun _ => [0]) 3 = some l ∧
      l.length = 3 ∧ (∀ p ∈ l, p ∈ ["a"]) ∧
      l.drop (["a"] : List String).length
        = List.replicate (3 - (["a"] : List String).length)
            ((["a"] : List String).getLast (List.cons_ne_nil "a" [])) :=
  retrieve_no_clamp ["a"] (fun _ => [0]) "q" 3 (List.cons_ne_nil "a" [])

/-- C4: for a non-empty document and `top_k` at most the number of
passages, retrieval returns exactly `top_k` passages, each from the
document's chunk set, ordered by non-decreasing squared Euclidean distance
between the query embedding and the passage embedding. -/
theorem retrieve_topk (sentences : List String) (embed : String → List ℚ)
    (query : String) (top_k : Nat) (hne : sentences ≠ [])
    (hk : top_k ≤ (chunk_text sentences 200).length) :
    ∃ l, retrieve_text query (chunk_text sentences 200)
          (build_faiss_index (chunk_text sentences 200) embed).1 embed top_k
        = some l ∧
      l.length = top_k ∧ (∀ p ∈ l, p ∈ chunk_text sentences 200) ∧
      l.Pairwise (fun p p' =>
        sqDist (embed query) (embed p) ≤ sqDist (embed query) (embed p')) :=
  retrieve_sorted_core (chunk_text sentences 200) embed query top_k
    (chunk_text_ne_nil sentences 200 hne) hk

/-- Witness for C4 at a one-sentence document and top_k = 1. -/
theorem retrieve_topk_witness :
    ∃ l, retrieve_text "what" (chunk_text ["Elias sought a manuscript."] 200)
          (build_faiss_index (chunk_text ["Elias sought a manuscript."] 200)
            (fun _ => [0])).1 (fun _ => [0]) 1
        = some l ∧
      l.length = 1 ∧ (∀ p ∈ l, p ∈ chunk_text ["Elias sought a manuscript."] 200) ∧
      l.Pairwise (fun p p' =>
        sqDist ((fun _ => [(0 : ℚ)]) "what") ((fun _ => [(0 : ℚ)]) p)
          ≤ sqDist ((fun _ => [(0 : ℚ)]) "what") ((fun _ => [(0 : ℚ)]) p')) :=
  retrieve_topk ["Elias sought a manuscript."] (fun _ => [0]) "what" 1
    (by decide) (by decide)

/-- External generation-side capabilities: the T5 tokenizer (encoding a
prompt into token ids, with truncation to the model maximum), the model's
`generate`, and the tokenizer's `decode`, whose Bool argument is the
`skip_special_tokens` flag. -/
structure GenCaps where
  encode : String → List Nat
  generate : List Nat → List Nat
  decode : List Nat → Bool → String

/-- Embedding of `generate_answer(context, question, model, tokenizer)`:
builds the prompt with the f-string
`f"question: {question} context: {context}"`, tokenizes it, generates, and
decodes the output sequence with `skip_special_tokens=True`. -/
def generate_answer (context question : String) (g : GenCaps) : String :=
  let input_text := "question: " ++ question ++ " context: " ++ context
  let inputs := g.encode input_text
  let outputs := g.generate inputs
  g.decode outputs true

/-- Modelled from the spec: the literal prompt pattern
`"question: {question} context: {context}"` named by the Generator
contract, for comparison with the prompt the code builds. -/
def promptPattern (question context : String) : String :=
  "question: " ++ question ++ " context: " ++ context

/-- Capabilities of the whole pipeline: nltk `sent_tokenize`, the
retrieval encoder, and the generation side. -/
structure Caps where
  sentTok : String → List String
  embed : String → List ℚ
  gen : GenCaps

/-- Chunking, index building and retrieval steps of
`answer_question(book_text, question)` (its first three lines). -/
def retrievedPassages (caps : Caps) (book_text question : String) :
    Option (List String) :=
  let chunks := chunk_text (caps.sentTok book_text) 200
  let index := (build_faiss_index chunks caps.embed).1
  retrieve_text question chunks index caps.embed 3

/-- Embedding of `answer_question(book_text, question)`: chunk the text,
build the index, retrieve passages for the question, join them into
`combined_context` and generate; `none` models an uncaught Python
exception. -/
def answer_question (caps : Caps) (book_text question : String) : Option String :=
  match retrievedPassages caps book_text question with
  | none => none
  | some relevant_text =>
    some (generate_answer (pyJoin " " relevant_text) question caps.gen)

/-- State the interactive `__main__` loop holds between questions: the
book text it read once, before the loop. -/
structure Session where
  book_text : String

/-- One non-exit iteration of the interactive loop: call `answer_question`
on the current book text; the loop does not rebind `book_text`. -/
def sessionStep (caps : Caps) (st : Session) (question : String) :
    Session × Option String :=
  (st, answer_question caps st.book_text question)

/-- Stub capabilities to evaluate the pipeline at concrete inputs: a
tokenizer returning no sentences for empty text and one sentence
otherwise, a constant embedder, and a generator decoding to a fixed
string. -/
def stubCaps : Caps :=
  { sentTok := fun s => if s = "" then [] else [s]
  , embed := fun _ => [0]
  , gen :=
    { encode := fun s => [s.length]
    , generate := fun ts => ts
    , decode := fun _ _ => "ok" } }

/-- C8: the Generator builds its prompt exactly by the literal pattern
"question: {question} context: {context}" and returns the decoded model
output with the special-token-stripping flag set. -/
theorem generate_answer_prompt (context question : String) (g : GenCaps) :
    generate_answer context question g
      = g.decode (g.generate (g.encode (promptPattern question context))) true := rfl

/-- C5 is false as stated: on an empty document the pipeline raises an
IndexError rather than returning an answer generated from an empty
context. -/
theorem empty_document_cex :
    answer_question stubCaps "" "What?" = none := by
  decide

/-- C5 amended: when the tokenizer returns no sentences the chunk set is
empty, and `answer_question` then fails (faiss pads every label with `-1`
and `chunks[-1]` is out of range on an empty list); generation is never
reached. -/
theorem empty_document_fails (caps : Caps) (book_text question : String)
    (h : caps.sentTok book_text = []) :
    chunk_text (caps.sentTok book_text) 200 = [] ∧
    answer_question caps book_text question = none := by
  constructor
  · rw [h]
    rfl
  · simp only [answer_question, retrievedPassages, h]
    rfl

/-- Witness for C5's amended claim at the empty document. -/
theorem empty_document_fails_witness :
    chunk_text (stubCaps.sentTok "") 200 = [] ∧
    answer_question stubCaps "" "What?" = none :=
  empty_document_fails stubCaps "" "What?" (by decide)

/-- C6 is false as stated: the code has no separate load operation, no
Unloaded state and no NotReady error; the answer entry point receives the
document text itself, and a fresh call with no prior load runs the whole
pipeline and returns a generated answer. -/
theorem no_notready_cex :
    answer_question stubCaps "Doc" "Q"
      = some (generate_answer (pyJoin " " ["Doc", "Doc", "Doc"]) "Q" stubCaps.gen) := by
  decide

/-- C6 amended: `answer_question` takes the document text on every call
and itself performs chunking, indexing, retrieval and generation; whenever
the text has at least one sentence the call returns a generated answer —
no NotReady failure exists anywhere in the pipeline. -/
theorem answer_always_generates (caps : Caps) (book_text question : String)
    (h : caps.sentTok book_text ≠ []) :
    ∃ ps, retrievedPassages caps book_text question = some ps ∧
      answer_question caps book_text question
        = some (generate_answer (pyJoin " " ps) question caps.gen) := by
  have hch : chunk_text (caps.sentTok book_text) 200 ≠ [] :=
    chunk_text_ne_nil _ _ h
  have hmain : retrievedPassages caps book_text question
      = some ((faissSearch ((chunk_text (caps.sentTok book_text) 200).map caps.embed)
          (caps.embed question) 3).map
            (resolveHit (chunk_text (caps.sentTok book_text) 200))) :=
    retrieve_eq_map _ caps.embed question 3 hch
  exact ⟨_, hmain, by simp only [answer_question, hmain]⟩

/-- Witness for C6's amended claim at a one-sentence document. -/
theorem answer_always_generates_witness :
    ∃ ps, retrievedPassages stubCaps "Doc" "Q" = some ps ∧
      answer_question stubCaps "Doc" "Q"
        = some (generate_answer (pyJoin " " ps) "Q" stubCaps.gen) :=
  answer_always_generates stubCaps "Doc" "Q" (by decide)

/-- C9: answering does not mutate the session state (the loop never
rebinds `book_text`), and every passage a retrieval returns belongs to the
chunk set of the currently loaded text — never to a previously loaded
document, because chunks and index are rebuilt from the current text on
every call. -/
theorem answer_frame (caps : Caps) (st : Session) (question : String)
    (ps : List String)
    (h : retrievedPassages caps st.book_text question = some ps) :
    (sessionStep caps st question).1 = st ∧
    ∀ p ∈ ps, p ∈ chunk_text (caps.sentTok st.book_text) 200 := by
  refine ⟨rfl, ?_⟩
  intro p hp
  have h2 : mapOrFail
      (fun e => pyGet (chunk_text (caps.sentTok st.book_text) 200) e.1)
      (faissSearch ((chunk_text (caps.sentTok st.book_text) 200).map caps.embed)
        (caps.embed question) 3) = some ps := h
  rcases mapOrFail_mem h2 p hp with ⟨e, -, he⟩
  exact pyGet_mem he

/-- Witness for C9 at a one-sentence session. -/
theorem answer_frame_witness :
    (sessionStep stubCaps ⟨"Doc"⟩ "Q").1 = (⟨"Doc"⟩ : Session) ∧
    ∀ p ∈ ["Doc", "Doc", "Doc"],
      p ∈ chunk_text (stubCaps.sentTok (⟨"Doc"⟩ : Session).book_text) 200 :=
  answer_frame stubCaps ⟨"Doc"⟩ "Q" ["Doc", "Doc", "Doc"] (by decide)

end SLM
